import Mathlib

/-!
Shallow embedding of the matchbox WASM signaling server core
(`src/matchbox_server_wasm/src/state.rs`) and verification of its
specified properties.

Modelling choices:
* `PeerId` (a UUID in the source) is modelled as `Nat`; the random
  `uuid::Uuid::new_v4()` mint inside `join_room_inner` is modelled as an
  explicit `fresh : PeerId` argument, with freshness (collision
  resistance of the generator) a hypothesis of the theorems.
* `HashMap` is modelled as an association list with first-match lookup,
  replace-in-place insert and erase-all-bindings removal; `HashSet` as a
  duplicate-free list with append-if-absent insert.  On the states a
  `HashMap`/`HashSet` can actually reach (no duplicate keys) these are
  extensionally the map/set operations of the source.
* events, stored as JSON strings in the source, are modelled by the
  inductive `Event` whose constructors mirror the `JsonPeerEvent`
  variants the core produces, plus `payload` for the opaque,
  caller-formed strings passed to `queue_event`.
* the load/save persistence envelope is out of scope per the spec; each
  operation is the pure state transition between its load and its save.
-/

set_option autoImplicit false

namespace Matchbox

/-- Peer identifier (`PeerId`, a UUID in the source). -/
abbrev PeerId := Nat

/-- Room identifier (`RoomId(pub String)` in the source). -/
abbrev RoomId := String

/-- Events a peer's queue can hold: the `JsonPeerEvent` variants the core
emits, plus an opaque caller-formed payload string (`queue_event`'s
`event: String` argument). -/
inductive Event where
  | idAssigned (p : PeerId)
  | newPeer (p : PeerId)
  | peerLeft (p : PeerId)
  | payload (s : String)
deriving DecidableEq, Repr

/-- `SignalingError` from `error.rs` (payloads of the non-`UnknownPeer`
variants modelled as strings). -/
inductive SignalingError where
  | sendError (msg : String)
  | unknownPeer
  | webSocket (msg : String)
  | json (msg : String)
  | http (msg : String)
deriving DecidableEq, Repr

/-- `PeerState { room, events }`: the room a peer is in and its pending
event queue (front of the list = front of the `VecDeque`). -/
structure PeerState where
  room : RoomId
  events : List Event
deriving DecidableEq, Repr

/-- First-match lookup in an association list (`HashMap::get`). -/
def lookupA {α β : Type} [DecidableEq α] (k : α) : List (α × β) → Option β
  | [] => none
  | (k₂, v) :: t => if k = k₂ then some v else lookupA k t

/-- Replace-in-place-or-append insert (`HashMap::insert`). -/
def insertA {α β : Type} [DecidableEq α] (k : α) (v : β) : List (α × β) → List (α × β)
  | [] => [(k, v)]
  | (k₂, v₂) :: t => if k = k₂ then (k, v) :: t else (k₂, v₂) :: insertA k v t

/-- Remove every binding of a key (`HashMap::remove`; on duplicate-free
key lists this is exactly removal of the unique binding). -/
def eraseA {α β : Type} [DecidableEq α] (k : α) (l : List (α × β)) : List (α × β) :=
  l.filter (fun kv => decide (kv.1 ≠ k))

/-- Update the value at a key in place, if present (`HashMap::get_mut`
followed by a mutation of the value). -/
def updateA {α β : Type} [DecidableEq α] (k : α) (f : β → β) : List (α × β) → List (α × β)
  | [] => []
  | (k₂, v) :: t => if k = k₂ then (k₂, f v) :: t else (k₂, v) :: updateA k f t

/-- `HashSet::insert`: add the element if absent. -/
def setInsert (p : PeerId) (l : List PeerId) : List PeerId :=
  if p ∈ l then l else l ++ [p]

/-- `InnerState { peers, rooms }`: the full server snapshot. -/
structure InnerState where
  peers : List (PeerId × PeerState)
  rooms : List (RoomId × List PeerId)
deriving DecidableEq, Repr

/-- `InnerState::default()`: the state when no snapshot exists yet. -/
def emptyState : InnerState := ⟨[], []⟩

/-- The pending queue of a peer ( `[]` when the peer is unknown). -/
def queueOf (s : InnerState) (p : PeerId) : List Event :=
  (lookupA p s.peers).elim [] PeerState.events

/-- Append one event to a peer's queue if the peer exists
(the `if let Some(st) = peers.get_mut(id) { st.events.push_back(e) }`
pattern of the fan-out loops). -/
def pushEvt (e : Event) (acc : List (PeerId × PeerState)) (q : PeerId) :
    List (PeerId × PeerState) :=
  updateA q (fun ps => { ps with events := ps.events ++ [e] }) acc

/-- `ServerState::join_room_inner`: join `room_id` as the newly minted
peer `fresh`.  Mirrors the source line by line: snapshot the room's
current member list, build the new peer's initial queue (`IdAssigned`
then one `NewPeer` per existing member in iteration order), insert the
peer, insert it into the room set, fan `NewPeer fresh` out to the
existing members, and finally drain and return the new peer's queue. -/
def join_room_inner (s : InnerState) (room_id : RoomId) (fresh : PeerId) :
    (PeerId × List Event) × InnerState :=
  let existing_peers : List PeerId := (lookupA room_id s.rooms).getD []
  let peer_state : PeerState :=
    { room := room_id
      events := Event.idAssigned fresh :: existing_peers.map Event.newPeer }
  let peers1 := insertA fresh peer_state s.peers
  let rooms1 := insertA room_id (setInsert fresh existing_peers) s.rooms
  let peers2 := existing_peers.foldl (pushEvt (Event.newPeer fresh)) peers1
  let events : List Event := (lookupA fresh peers2).elim [] PeerState.events
  let peers3 := updateA fresh (fun ps => { ps with events := [] }) peers2
  ((fresh, events), ⟨peers3, rooms1⟩)

/-- `ServerState::join_or_poll`: poll (drain the queue) when the supplied
peer id exists, otherwise join as the freshly minted `fresh`. -/
def join_or_poll (s : InnerState) (room_id : RoomId) (pid? : Option PeerId)
    (fresh : PeerId) : (PeerId × List Event) × InnerState :=
  match pid? with
  | some id =>
    match lookupA id s.peers with
    | some ps =>
      ((id, ps.events), ⟨updateA id (fun q => { q with events := [] }) s.peers, s.rooms⟩)
    | none => join_room_inner s room_id fresh
  | none => join_room_inner s room_id fresh

/-- `ServerState::queue_event`: append the opaque payload to the
receiver's queue, or fail with `UnknownPeer` leaving the state as is. -/
def queue_event (s : InnerState) (pid : PeerId) (ev : String) :
    Except SignalingError Unit × InnerState :=
  match lookupA pid s.peers with
  | some ps =>
    (Except.ok (),
      ⟨insertA pid { ps with events := ps.events ++ [Event.payload ev] } s.peers, s.rooms⟩)
  | none => (Except.error SignalingError.unknownPeer, s)

/-- `ServerState::remove_peer`: remove the peer (discarding its queue),
remove it from its room's set, and fan `PeerLeft` out to the remaining
members of that room.  Unknown peers are a silent no-op. -/
def remove_peer (s : InnerState) (pid : PeerId) : InnerState :=
  match lookupA pid s.peers with
  | none => s
  | some ps =>
    let peers1 := eraseA pid s.peers
    match lookupA ps.room s.rooms with
    | some room_peers =>
      let rp := room_peers.filter (fun q => decide (q ≠ pid))
      let rooms1 := insertA ps.room rp s.rooms
      let peers2 := rp.foldl (pushEvt (Event.peerLeft pid)) peers1
      ⟨peers2, rooms1⟩
    | none => ⟨peers1, s.rooms⟩

/-- `ServerState::get_room_peers`: the room's member list, `[]` when the
room is unknown.  Read-only. -/
def get_room_peers (s : InnerState) (room_id : RoomId) : List PeerId :=
  (lookupA room_id s.rooms).getD []

/-! ## Traces of engine operations -/

/-- One invocation of a Rendezvous Engine operation.  A `joinOrPoll`
carries the id the generator would mint if this call turns out to be a
join. -/
inductive Op where
  | joinOrPoll (room : RoomId) (pid? : Option PeerId) (fresh : PeerId)
  | queueSignal (pid : PeerId) (payload : String)
  | removePeer (pid : PeerId)
  | listRoomPeers (room : RoomId)
deriving DecidableEq, Repr

/-- The state transition of one operation. -/
def stepState (s : InnerState) : Op → InnerState
  | .joinOrPoll room pid? fresh => (join_or_poll s room pid? fresh).2
  | .queueSignal pid payload => (queue_event s pid payload).2
  | .removePeer pid => remove_peer s pid
  | .listRoomPeers _ => s

/-- Run a whole sequence of operations. -/
def runState (s : InnerState) : List Op → InnerState
  | [] => s
  | op :: rest => runState (stepState s op) rest

/-- The events a join of `room` by the freshly minted `fresh` appends to
peer `p`'s queue: the `NewPeer fresh` fan-out reaches exactly the
pre-existing room members that are present in the peer registry. -/
def joinAppends (s : InnerState) (room : RoomId) (fresh : PeerId) (p : PeerId) :
    List Event :=
  let existing := (lookupA room s.rooms).getD []
  if p ∈ existing ∧ p ≠ fresh ∧ (lookupA p s.peers).isSome
  then [Event.newPeer fresh] else []

/-- The events operation `op`, run in state `s`, appends to peer `p`'s
queue (by `queue_event`, by the join fan-out, or by the leave fan-out;
the joining peer's own initial queue is built and drained inside the
same call and is not an append to a persisting queue). -/
def appendedTo (s : InnerState) (op : Op) (p : PeerId) : List Event :=
  match op with
  | .joinOrPoll room pid? fresh =>
    match pid? with
    | some id =>
      match lookupA id s.peers with
      | some _ => []
      | none => joinAppends s room fresh p
    | none => joinAppends s room fresh p
  | .queueSignal pid payload =>
    if (lookupA pid s.peers).isSome ∧ p = pid then [Event.payload payload] else []
  | .removePeer pid =>
    match lookupA pid s.peers with
    | some ps =>
      let others := ((lookupA ps.room s.rooms).getD []).filter (fun q => decide (q ≠ pid))
      if p ∈ others ∧ p ≠ pid ∧ (lookupA p s.peers).isSome
      then [Event.peerLeft pid] else []
    | none => []
  | .listRoomPeers _ => []

/-- The events operation `op`, run in state `s`, delivers to peer `p` by
a poll made with `p`'s id (a join's response to the joining peer is the
join's own return value, not a poll delivery). -/
def deliveredTo (s : InnerState) (op : Op) (p : PeerId) : List Event :=
  match op with
  | .joinOrPoll _ (some id) _ =>
    match lookupA id s.peers with
    | some ps => if p = id then ps.events else []
    | none => []
  | _ => []

/-- All events appended to `p`'s queue over a sequence of operations. -/
def appendedAll (s : InnerState) (p : PeerId) : List Op → List Event
  | [] => []
  | op :: rest => appendedTo s op p ++ appendedAll (stepState s op) p rest

/-- All events delivered to `p` by polls over a sequence of operations. -/
def deliveredAll (s : InnerState) (p : PeerId) : List Op → List Event
  | [] => []
  | op :: rest => deliveredTo s op p ++ deliveredAll (stepState s op) p rest

/-- Hygiene of a trace: every `joinOrPoll` carries a minted id that is
globally new (the spec's "minted once … and never reused", i.e. a
collision-resistant generator). -/
def freshOk : List PeerId → List Op → Bool
  | _, [] => true
  | used, op :: rest =>
    match op with
    | .joinOrPoll _ _ fresh => decide (fresh ∉ used) && freshOk (fresh :: used) rest
    | _ => freshOk used rest

/-! ## Invariants -/

/-- The spec's two registry-consistency invariants: every peer's `room`
names a room whose member set contains the peer, and every member of
any room's set is a registered peer pointing back at that room. -/
def Inv (s : InnerState) : Prop :=
  (∀ p ps, lookupA p s.peers = some ps →
    ∃ l, lookupA ps.room s.rooms = some l ∧ p ∈ l) ∧
  (∀ r l, lookupA r s.rooms = some l →
    ∀ p, p ∈ l → ∃ ps, lookupA p s.peers = some ps ∧ ps.room = r)

/-- Well-formedness: the registry invariants plus duplicate-freeness of
every room's member list (automatic for a `HashSet`). -/
def WF (s : InnerState) : Prop :=
  Inv s ∧ ∀ r l, lookupA r s.rooms = some l → l.Nodup

/-- Executable check implying `Inv` (used to certify concrete states). -/
def InvB (s : InnerState) : Bool :=
  (s.peers.map Prod.fst).all (fun p =>
    (lookupA p s.peers).all (fun ps =>
      decide (p ∈ (lookupA ps.room s.rooms).getD []))) &&
  (s.rooms.map Prod.fst).all (fun r =>
    ((lookupA r s.rooms).getD []).all (fun p =>
      (lookupA p s.peers).any (fun ps => decide (ps.room = r))))

/-- Executable check implying `WF`. -/
def WFB (s : InnerState) : Bool :=
  InvB s && (s.rooms.map Prod.fst).all (fun r =>
    decide ((lookupA r s.rooms).getD []).Nodup)

/-- A concrete two-member room used to instantiate the theorems:
peers `1` and `2` are in room `"r1"`, and peer `2` has one pending
event. -/
def exState : InnerState :=
  ⟨[(1, ⟨"r1", []⟩), (2, ⟨"r1", [Event.newPeer 1]⟩)], [("r1", [1, 2])]⟩

/-- Freshness requirement one operation puts on the minted id. -/
def opFresh (s : InnerState) : Op → Prop
  | .joinOrPoll _ _ fresh => lookupA fresh s.peers = none
  | _ => True

/-- The minted ids consumed so far, as tracked by `freshOk`. -/
def usedStep (used : List PeerId) : Op → List PeerId
  | .joinOrPoll _ _ fresh => fresh :: used
  | _ => used

/-- Reachability invariant used by the delivery-ledger proof:
well-formedness plus "every registered peer id was minted". -/
def Gd (s : InnerState) (used : List PeerId) : Prop :=
  WF s ∧ ∀ p, (lookupA p s.peers).isSome = true → p ∈ used

/-! ## Association-list lemmas -/

theorem lookupA_insertA_self {α β : Type} [DecidableEq α] (k : α) (v : β)
    (l : List (α × β)) : lookupA k (insertA k v l) = some v := by
  induction l with
  | nil => simp [insertA, lookupA]
  | cons hd t ih =>
    obtain ⟨k₂, v₂⟩ := hd
    by_cases hk : k = k₂
    · simp [insertA, hk, lookupA]
    · simp [insertA, hk, lookupA, ih]

theorem lookupA_insertA_ne {α β : Type} [DecidableEq α] {k k₁ : α} (v : β)
    (l : List (α × β)) (h : k₁ ≠ k) :
    lookupA k₁ (insertA k v l) = lookupA k₁ l := by
  induction l with
  | nil => simp [insertA, lookupA, h]
  | cons hd t ih =>
    obtain ⟨k₂, v₂⟩ := hd
    by_cases hk : k = k₂
    · subst hk
      simp [insertA, lookupA, h]
    · by_cases hk₁ : k₁ = k₂ <;> simp [insertA, hk, lookupA, hk₁, ih]

theorem lookupA_eraseA_self {α β : Type} [DecidableEq α] (k : α)
    (l : List (α × β)) : lookupA k (eraseA k l) = none := by
  induction l with
  | nil => simp [eraseA, lookupA]
  | cons hd t ih =>
    obtain ⟨k₂, v₂⟩ := hd
    by_cases hk : k₂ = k
    · simpa [eraseA, List.filter, hk] using ih
    · have : k ≠ k₂ := fun h => hk h.symm
      simpa [eraseA, List.filter, hk, lookupA, this] using ih

theorem lookupA_eraseA_ne {α β : Type} [DecidableEq α] {k k₁ : α}
    (l : List (α × β)) (h : k₁ ≠ k) :
    lookupA k₁ (eraseA k l) = lookupA k₁ l := by
  induction l with
  | nil => simp [eraseA, lookupA]
  | cons hd t ih =>
    obtain ⟨k₂, v₂⟩ := hd
    by_cases hk : k₂ = k
    · subst hk
      have hne : k₁ ≠ k₂ := h
      rw [show eraseA k₂ ((k₂, v₂) :: t) = eraseA k₂ t by simp [eraseA, List.filter]]
      simp [ih, lookupA, hne]
    · rw [show eraseA k ((k₂, v₂) :: t) = (k₂, v₂) :: eraseA k t by
        simp [eraseA, List.filter, hk]]
      by_cases hk₁ : k₁ = k₂ <;> simp [lookupA, hk₁, ih]

theorem lookupA_updateA_self {α β : Type} [DecidableEq α] (k : α) (f : β → β)
    (l : List (α × β)) : lookupA k (updateA k f l) = (lookupA k l).map f := by
  induction l with
  | nil => simp [updateA, lookupA]
  | cons hd t ih =>
    obtain ⟨k₂, v₂⟩ := hd
    by_cases hk : k = k₂
    · simp [updateA, hk, lookupA]
    · simp [updateA, hk, lookupA, ih]

theorem lookupA_updateA_ne {α β : Type} [DecidableEq α] {k k₁ : α} (f : β → β)
    (l : List (α × β)) (h : k₁ ≠ k) :
    lookupA k₁ (updateA k f l) = lookupA k₁ l := by
  induction l with
  | nil => simp [updateA, lookupA]
  | cons hd t ih =>
    obtain ⟨k₂, v₂⟩ := hd
    by_cases hk : k = k₂
    · subst hk
      simp [updateA, lookupA, h]
    · by_cases hk₁ : k₁ = k₂ <;> simp [updateA, hk, lookupA, hk₁, ih]

theorem mem_setInsert_self (p : PeerId) (l : List PeerId) : p ∈ setInsert p l := by
  by_cases h : p ∈ l <;> simp [setInsert, h]

theorem mem_setInsert_iff (p q : PeerId) (l : List PeerId) :
    q ∈ setInsert p l ↔ q ∈ l ∨ q = p := by
  by_cases h : p ∈ l
  · simp only [setInsert, if_pos h]
    constructor
    · exact Or.inl
    · rintro (hq | rfl)
      · exact hq
      · exact h
  · simp [setInsert, if_neg h]

theorem setInsert_nodup (p : PeerId) (l : List PeerId) (h : l.Nodup) :
    (setInsert p l).Nodup := by
  by_cases hp : p ∈ l
  · simpa [setInsert, hp] using h
  · simp [setInsert, hp, List.nodup_append, h]

/-! ## Fan-out fold lemmas -/

theorem lookupA_foldl_pushEvt_not_mem (e : Event) (L : List PeerId)
    (acc : List (PeerId × PeerState)) {p : PeerId} (hp : p ∉ L) :
    lookupA p (L.foldl (pushEvt e) acc) = lookupA p acc := by
  induction L generalizing acc with
  | nil => rfl
  | cons q t ih =>
    have hpq : p ≠ q := fun h => hp (h ▸ List.mem_cons_self q t)
    have hpt : p ∉ t := fun h => hp (List.mem_cons_of_mem q h)
    simp only [List.foldl_cons]
    rw [ih _ hpt, pushEvt, lookupA_updateA_ne _ _ hpq]

theorem lookupA_foldl_pushEvt_mem (e : Event) (L : List PeerId)
    (acc : List (PeerId × PeerState)) {p : PeerId} (hnd : L.Nodup) (hp : p ∈ L) :
    lookupA p (L.foldl (pushEvt e) acc) =
      (lookupA p acc).map (fun ps => { ps with events := ps.events ++ [e] }) := by
  induction L generalizing acc with
  | nil => cases hp
  | cons q t ih =>
    have hqt : q ∉ t := (List.nodup_cons.mp hnd).1
    have hndt : t.Nodup := (List.nodup_cons.mp hnd).2
    simp only [List.foldl_cons]
    rcases List.mem_cons.mp hp with rfl | hpt
    · rw [lookupA_foldl_pushEvt_not_mem _ _ _ hqt, pushEvt, lookupA_updateA_self]
    · have hpq : p ≠ q := fun h => hqt (h ▸ hpt)
      rw [ih _ hndt hpt, pushEvt, lookupA_updateA_ne _ _ hpq]

/-! ## Characterization of a join -/

theorem member_live {s : InnerState} {room : RoomId} {q : PeerId}
    (hInv : Inv s) (hq : q ∈ (lookupA room s.rooms).getD []) :
    ∃ qs, lookupA q s.peers = some qs ∧ qs.room = room := by
  rcases hl : lookupA room s.rooms with _ | l
  · rw [hl] at hq
    cases hq
  · rw [hl] at hq
    exact hInv.2 room l hl q hq

theorem fresh_not_mem_existing {s : InnerState} (room : RoomId) {fresh : PeerId}
    (hInv : Inv s) (hfresh : lookupA fresh s.peers = none) :
    fresh ∉ (lookupA room s.rooms).getD [] := by
  intro hmem
  obtain ⟨qs, hqs, -⟩ := member_live hInv hmem
  rw [hfresh] at hqs
  cases hqs

theorem existing_nodup {s : InnerState} (room : RoomId)
    (hWF : WF s) : ((lookupA room s.rooms).getD []).Nodup := by
  rcases hl : lookupA room s.rooms with _ | l
  · simp
  · simpa using hWF.2 room l hl

theorem join_room_inner_result {s : InnerState} {room : RoomId} {fresh : PeerId}
    (hInv : Inv s) (hfresh : lookupA fresh s.peers = none) :
    (join_room_inner s room fresh).1 =
      (fresh, Event.idAssigned fresh ::
        ((lookupA room s.rooms).getD []).map Event.newPeer) := by
  have hnm := fresh_not_mem_existing room hInv hfresh
  simp only [join_room_inner]
  rw [lookupA_foldl_pushEvt_not_mem _ _ _ hnm, lookupA_insertA_self]
  rfl

theorem join_room_inner_rooms (s : InnerState) (room : RoomId) (fresh : PeerId) :
    (join_room_inner s room fresh).2.rooms =
      insertA room (setInsert fresh ((lookupA room s.rooms).getD [])) s.rooms := rfl

theorem join_room_inner_peers_fresh {s : InnerState} {room : RoomId} {fresh : PeerId}
    (hInv : Inv s) (hfresh : lookupA fresh s.peers = none) :
    lookupA fresh (join_room_inner s room fresh).2.peers =
      some { room := room, events := [] } := by
  have hnm := fresh_not_mem_existing room hInv hfresh
  simp only [join_room_inner]
  rw [lookupA_updateA_self, lookupA_foldl_pushEvt_not_mem _ _ _ hnm,
    lookupA_insertA_self]
  rfl

theorem join_room_inner_peers_member {s : InnerState} {room : RoomId} {fresh q : PeerId}
    (hWF : WF s) (hfresh : lookupA fresh s.peers = none)
    (hq : q ∈ (lookupA room s.rooms).getD []) :
    lookupA q (join_room_inner s room fresh).2.peers =
      (lookupA q s.peers).map
        (fun ps => { ps with events := ps.events ++ [Event.newPeer fresh] }) := by
  obtain ⟨qs, hqs, -⟩ := member_live hWF.1 hq
  have hqf : q ≠ fresh := by
    intro h
    rw [h, hfresh] at hqs
    cases hqs
  have hnd := existing_nodup (s := s) room hWF
  simp only [join_room_inner]
  rw [lookupA_updateA_ne _ _ hqf, lookupA_foldl_pushEvt_mem _ _ _ hnd hq,
    lookupA_insertA_ne _ _ hqf]

theorem join_room_inner_peers_other {s : InnerState} {room : RoomId} {fresh q : PeerId}
    (hq : q ∉ (lookupA room s.rooms).getD []) (hqf : q ≠ fresh) :
    lookupA q (join_room_inner s room fresh).2.peers = lookupA q s.peers := by
  simp only [join_room_inner]
  rw [lookupA_updateA_ne _ _ hqf, lookupA_foldl_pushEvt_not_mem _ _ _ hq,
    lookupA_insertA_ne _ _ hqf]

/-! ## Characterization of poll, queue_event and remove_peer -/

theorem join_or_poll_poll {s : InnerState} {id : PeerId} {ps : PeerState}
    (room : RoomId) (fresh : PeerId) (h : lookupA id s.peers = some ps) :
    join_or_poll s room (some id) fresh =
      ((id, ps.events),
        ⟨updateA id (fun q => { q with events := [] }) s.peers, s.rooms⟩) := by
  simp [join_or_poll, h]

theorem join_or_poll_join_none (s : InnerState) (room : RoomId) (fresh : PeerId) :
    join_or_poll s room none fresh = join_room_inner s room fresh := rfl

theorem join_or_poll_join_unknown {s : InnerState} {id : PeerId}
    (room : RoomId) (fresh : PeerId) (h : lookupA id s.peers = none) :
    join_or_poll s room (some id) fresh = join_room_inner s room fresh := by
  simp [join_or_poll, h]

theorem queue_event_found {s : InnerState} {pid : PeerId} {ps : PeerState}
    (ev : String) (h : lookupA pid s.peers = some ps) :
    queue_event s pid ev =
      (Except.ok (),
        ⟨insertA pid { ps with events := ps.events ++ [Event.payload ev] } s.peers,
          s.rooms⟩) := by
  simp [queue_event, h]

theorem queue_event_not_found {s : InnerState} {pid : PeerId}
    (ev : String) (h : lookupA pid s.peers = none) :
    queue_event s pid ev = (Except.error SignalingError.unknownPeer, s) := by
  simp [queue_event, h]

theorem remove_peer_not_found {s : InnerState} {pid : PeerId}
    (h : lookupA pid s.peers = none) : remove_peer s pid = s := by
  simp [remove_peer, h]

theorem remove_peer_lookup_self (s : InnerState) (pid : PeerId) :
    lookupA pid (remove_peer s pid).peers = none := by
  rcases hps : lookupA pid s.peers with _ | ps
  · rw [remove_peer_not_found hps, hps]
  · rcases hr : lookupA ps.room s.rooms with _ | l
    · simp only [remove_peer, hps, hr]
      exact lookupA_eraseA_self pid s.peers
    · have hnm : pid ∉ l.filter (fun q => decide (q ≠ pid)) := by
        simp [List.mem_filter]
      simp only [remove_peer, hps, hr]
      rw [lookupA_foldl_pushEvt_not_mem _ _ _ hnm]
      exact lookupA_eraseA_self pid s.peers

theorem remove_peer_rooms_found {s : InnerState} {pid : PeerId} {ps : PeerState}
    {l : List PeerId} (hps : lookupA pid s.peers = some ps)
    (hr : lookupA ps.room s.rooms = some l) :
    (remove_peer s pid).rooms =
      insertA ps.room (l.filter (fun q => decide (q ≠ pid))) s.rooms := by
  simp only [remove_peer, hps, hr]

theorem remove_peer_peers_member {s : InnerState} {pid q : PeerId} {ps : PeerState}
    {l : List PeerId} (hWF : WF s) (hps : lookupA pid s.peers = some ps)
    (hr : lookupA ps.room s.rooms = some l)
    (hq : q ∈ l.filter (fun r => decide (r ≠ pid))) :
    lookupA q (remove_peer s pid).peers =
      (lookupA q s.peers).map
        (fun qs => { qs with events := qs.events ++ [Event.peerLeft pid] }) := by
  have hql : q ∈ l ∧ q ≠ pid := by
    have := List.mem_filter.mp hq
    exact ⟨this.1, by simpa using this.2⟩
  have hnd : (l.filter (fun r => decide (r ≠ pid))).Nodup :=
    (hWF.2 ps.room l hr).filter _
  simp only [remove_peer, hps, hr]
  rw [lookupA_foldl_pushEvt_mem _ _ _ hnd hq, lookupA_eraseA_ne _ hql.2]

theorem remove_peer_peers_other {s : InnerState} {pid q : PeerId} {ps : PeerState}
    (hps : lookupA pid s.peers = some ps) (hqp : q ≠ pid)
    (hq : ∀ l, lookupA ps.room s.rooms = some l →
      q ∉ l.filter (fun r => decide (r ≠ pid))) :
    lookupA q (remove_peer s pid).peers = lookupA q s.peers := by
  rcases hr : lookupA ps.room s.rooms with _ | l
  · simp only [remove_peer, hps, hr]
    exact lookupA_eraseA_ne _ hqp
  · simp only [remove_peer, hps, hr]
    rw [lookupA_foldl_pushEvt_not_mem _ _ _ (hq l hr)]
    exact lookupA_eraseA_ne _ hqp

/-! ## Room-pointer preservation lemmas -/

theorem lookupA_updateA_room {k p : PeerId} {f : PeerState → PeerState}
    (l : List (PeerId × PeerState)) (hf : ∀ ps, (f ps).room = ps.room) :
    (lookupA p (updateA k f l)).map PeerState.room =
      (lookupA p l).map PeerState.room := by
  by_cases hp : p = k
  · subst hp
    rw [lookupA_updateA_self]
    cases lookupA p l with
    | none => rfl
    | some ps => simp [hf ps]
  · rw [lookupA_updateA_ne _ _ hp]

theorem lookupA_foldl_pushEvt_room (e : Event) (L : List PeerId)
    (acc : List (PeerId × PeerState)) (p : PeerId) :
    (lookupA p (L.foldl (pushEvt e) acc)).map PeerState.room =
      (lookupA p acc).map PeerState.room := by
  induction L generalizing acc with
  | nil => rfl
  | cons q t ih =>
    simp only [List.foldl_cons]
    rw [ih]
    exact lookupA_updateA_room acc (fun ps => rfl)

theorem join_peers_room (s : InnerState) (room : RoomId) {fresh p : PeerId}
    (hp : p ≠ fresh) :
    (lookupA p (join_room_inner s room fresh).2.peers).map PeerState.room =
      (lookupA p s.peers).map PeerState.room := by
  simp only [join_room_inner]
  rw [lookupA_updateA_ne _ _ hp, lookupA_foldl_pushEvt_room,
    lookupA_insertA_ne _ _ hp]

theorem remove_peers_room {s : InnerState} {pid p : PeerId} (hp : p ≠ pid) :
    (lookupA p (remove_peer s pid).peers).map PeerState.room =
      (lookupA p s.peers).map PeerState.room := by
  rcases hps : lookupA pid s.peers with _ | ps
  · rw [remove_peer_not_found hps]
  · rcases hr : lookupA ps.room s.rooms with _ | l
    · simp only [remove_peer, hps, hr]
      rw [lookupA_eraseA_ne _ hp]
    · simp only [remove_peer, hps, hr]
      rw [lookupA_foldl_pushEvt_room, lookupA_eraseA_ne _ hp]

/-! ## Invariant preservation -/

theorem inv_congr_room {s s' : InnerState} (hrooms : s'.rooms = s.rooms)
    (hpeers : ∀ p, (lookupA p s'.peers).map PeerState.room =
      (lookupA p s.peers).map PeerState.room)
    (hInv : Inv s) : Inv s' := by
  constructor
  · intro p ps' hps'
    have h := hpeers p
    rw [hps'] at h
    rcases hq : lookupA p s.peers with _ | ps
    · rw [hq] at h
      cases h
    · rw [hq] at h
      obtain ⟨l, hl, hpl⟩ := hInv.1 p ps hq
      refine ⟨l, ?_, hpl⟩
      rw [hrooms]
      have : ps'.room = ps.room := by simpa using h
      rw [this]
      exact hl
  · intro r l hl p hpl
    rw [hrooms] at hl
    obtain ⟨ps, hps, hroom⟩ := hInv.2 r l hl p hpl
    have h := hpeers p
    rw [hps] at h
    rcases hq : lookupA p s'.peers with _ | ps'
    · rw [hq] at h
      cases h
    · rw [hq] at h
      have : ps'.room = ps.room := by simpa using h
      exact ⟨ps', rfl, this.trans hroom⟩

theorem inv_join_room_inner {s : InnerState} {room : RoomId} {fresh : PeerId}
    (hInv : Inv s) (hfresh : lookupA fresh s.peers = none) :
    Inv (join_room_inner s room fresh).2 := by
  constructor
  · intro p ps' hps'
    by_cases hp : p = fresh
    · subst hp
      rw [join_room_inner_peers_fresh hInv hfresh] at hps'
      cases hps'
      refine ⟨setInsert p ((lookupA room s.rooms).getD []), ?_, ?_⟩
      · rw [join_room_inner_rooms]
        exact lookupA_insertA_self _ _ _
      · exact mem_setInsert_self _ _
    · have h := join_peers_room s room hp
      rw [hps'] at h
      rcases hq : lookupA p s.peers with _ | ps
      · rw [hq] at h
        cases h
      · rw [hq] at h
        have hroom : ps'.room = ps.room := by simpa using h
        obtain ⟨l, hl, hpl⟩ := hInv.1 p ps hq
        by_cases hr : ps.room = room
        · refine ⟨setInsert fresh ((lookupA room s.rooms).getD []), ?_, ?_⟩
          · rw [join_room_inner_rooms, hroom, hr]
            exact lookupA_insertA_self _ _ _
          · rw [mem_setInsert_iff]
            left
            rw [hr] at hl
            simp [hl, hpl]
        · refine ⟨l, ?_, hpl⟩
          rw [join_room_inner_rooms, hroom]
          rw [lookupA_insertA_ne _ _ hr]
          exact hl
  · intro r l' hl' p hpl'
    rw [join_room_inner_rooms] at hl'
    by_cases hr : r = room
    · subst hr
      rw [lookupA_insertA_self] at hl'
      cases hl'
      rcases (mem_setInsert_iff _ _ _).mp hpl' with hpe | rfl
      · obtain ⟨ps, hps, hroom⟩ := member_live hInv hpe
        have hp : p ≠ fresh := by
          intro h
          rw [h, hfresh] at hps
          cases hps
        have h := join_peers_room s r hp
        rw [hps] at h
        rcases hq : lookupA p (join_room_inner s r fresh).2.peers with _ | ps'
        · rw [hq] at h
          cases h
        · rw [hq] at h
          have : ps'.room = ps.room := by simpa using h
          exact ⟨ps', rfl, this.trans hroom⟩
      · exact ⟨_, join_room_inner_peers_fresh hInv hfresh, rfl⟩
    · rw [lookupA_insertA_ne _ _ hr] at hl'
      obtain ⟨ps, hps, hroom⟩ := hInv.2 r l' hl' p hpl'
      have hp : p ≠ fresh := by
        intro h
        rw [h, hfresh] at hps
        cases hps
      have h := join_peers_room s room hp
      rw [hps] at h
      rcases hq : lookupA p (join_room_inner s room fresh).2.peers with _ | ps'
      · rw [hq] at h
        cases h
      · rw [hq] at h
        have : ps'.room = ps.room := by simpa using h
        exact ⟨ps', rfl, this.trans hroom⟩

theorem inv_remove_peer {s : InnerState} {pid : PeerId} (hInv : Inv s) :
    Inv (remove_peer s pid) := by
  rcases hps : lookupA pid s.peers with _ | ps
  · rw [remove_peer_not_found hps]
    exact hInv
  · obtain ⟨l, hr, hpidl⟩ := hInv.1 pid ps hps
    have hrooms : (remove_peer s pid).rooms =
        insertA ps.room (l.filter (fun q => decide (q ≠ pid))) s.rooms :=
      remove_peer_rooms_found hps hr
    constructor
    · intro q qs' hqs'
      have hqp : q ≠ pid := by
        intro h
        rw [h, remove_peer_lookup_self] at hqs'
        cases hqs'
      have h := remove_peers_room (s := s) hqp
      rw [hqs'] at h
      rcases hq : lookupA q s.peers with _ | qs
      · rw [hq] at h
        cases h
      · rw [hq] at h
        have hroom : qs'.room = qs.room := by simpa using h
        obtain ⟨l₂, hl₂, hql₂⟩ := hInv.1 q qs hq
        by_cases hqr : qs.room = ps.room
        · have hll : l₂ = l := by
            rw [hqr] at hl₂
            rw [hl₂] at hr
            exact (Option.some.injEq _ _).mp hr
          refine ⟨l.filter (fun r => decide (r ≠ pid)), ?_, ?_⟩
          · rw [hrooms, hroom, hqr]
            exact lookupA_insertA_self _ _ _
          · rw [List.mem_filter]
            exact ⟨hll ▸ hql₂, by simpa using hqp⟩
        · refine ⟨l₂, ?_, hql₂⟩
          rw [hrooms, hroom, lookupA_insertA_ne _ _ hqr]
          exact hl₂
    · intro r l' hl' q hql'
      rw [hrooms] at hl'
      by_cases hrr : r = ps.room
      · subst hrr
        rw [lookupA_insertA_self] at hl'
        cases hl'
        have hq : q ∈ l ∧ q ≠ pid := by
          have := List.mem_filter.mp hql'
          exact ⟨this.1, by simpa using this.2⟩
        obtain ⟨qs, hqs, hroom⟩ := hInv.2 ps.room l hr q hq.1
        have h := remove_peers_room (s := s) hq.2
        rw [hqs] at h
        rcases hlq : lookupA q (remove_peer s pid).peers with _ | qs'
        · rw [hlq] at h
          cases h
        · rw [hlq] at h
          have : qs'.room = qs.room := by simpa using h
          exact ⟨qs', rfl, this.trans hroom⟩
      · rw [lookupA_insertA_ne _ _ hrr] at hl'
        obtain ⟨qs, hqs, hroom⟩ := hInv.2 r l' hl' q hql'
        have hqp : q ≠ pid := by
          intro h
          rw [h, hps] at hqs
          cases hqs
          exact hrr hroom.symm
        have h := remove_peers_room (s := s) hqp
        rw [hqs] at h
        rcases hlq : lookupA q (remove_peer s pid).peers with _ | qs'
        · rw [hlq] at h
          cases h
        · rw [hlq] at h
          have : qs'.room = qs.room := by simpa using h
          exact ⟨qs', rfl, this.trans hroom⟩

theorem inv_preserved {s : InnerState} (op : Op) (hInv : Inv s)
    (hf : opFresh s op) : Inv (stepState s op) := by
  cases op with
  | joinOrPoll room pid? fresh =>
    cases pid? with
    | some id =>
      rcases hid : lookupA id s.peers with _ | ps
      · have : stepState s (Op.joinOrPoll room (some id) fresh) =
            (join_room_inner s room fresh).2 := by
          simp [stepState, join_or_poll, hid]
        rw [this]
        exact inv_join_room_inner hInv hf
      · have : stepState s (Op.joinOrPoll room (some id) fresh) =
            ⟨updateA id (fun q => { q with events := [] }) s.peers, s.rooms⟩ := by
          simp [stepState, join_or_poll, hid]
        rw [this]
        refine inv_congr_room (s := s) rfl (fun p => ?_) hInv
        exact lookupA_updateA_room s.peers (fun ps => rfl)
    | none =>
      have : stepState s (Op.joinOrPoll room none fresh) =
          (join_room_inner s room fresh).2 := rfl
      rw [this]
      exact inv_join_room_inner hInv hf
  | queueSignal pid payload =>
    rcases hid : lookupA pid s.peers with _ | ps
    · have : stepState s (Op.queueSignal pid payload) = s := by
        simp [stepState, queue_event, hid]
      rw [this]
      exact hInv
    · have : stepState s (Op.queueSignal pid payload) =
        ⟨insertA pid { ps with events := ps.events ++ [Event.payload payload] }
          s.peers, s.rooms⟩ := by
        simp [stepState, queue_event, hid]
      rw [this]
      refine inv_congr_room (s := s) rfl (fun p => ?_) hInv
      dsimp only
      by_cases hp : p = pid
      · rw [hp, lookupA_insertA_self, hid]
        rfl
      · rw [lookupA_insertA_ne _ _ hp]
  | removePeer pid => exact inv_remove_peer hInv
  | listRoomPeers room => exact hInv

/-! ## Soundness of the executable invariant checks -/

theorem lookupA_mem_keys {α β : Type} [DecidableEq α] {k : α} {v : β}
    {l : List (α × β)} (h : lookupA k l = some v) : k ∈ l.map Prod.fst := by
  induction l with
  | nil => cases h
  | cons hd t ih =>
    obtain ⟨k₂, v₂⟩ := hd
    by_cases hk : k = k₂
    · simp [hk]
    · simp only [lookupA, if_neg hk] at h
      simp [ih h]

theorem inv_of_invB {s : InnerState} (h : InvB s = true) : Inv s := by
  rw [InvB, Bool.and_eq_true, List.all_eq_true, List.all_eq_true] at h
  obtain ⟨h1, h2⟩ := h
  constructor
  · intro p ps hps
    have hc := h1 p (lookupA_mem_keys hps)
    rw [hps] at hc
    simp only [Option.all_some, decide_eq_true_eq] at hc
    rcases hr : lookupA ps.room s.rooms with _ | l
    · rw [hr] at hc
      simp at hc
    · rw [hr] at hc
      exact ⟨l, rfl, by simpa using hc⟩
  · intro r l hl p hpl
    have hc := h2 r (lookupA_mem_keys hl)
    rw [hl] at hc
    simp only [Option.getD_some, List.all_eq_true] at hc
    have hp := hc p hpl
    rcases hq : lookupA p s.peers with _ | ps
    · rw [hq] at hp
      simp [Option.any] at hp
    · rw [hq] at hp
      simp only [Option.any_some, decide_eq_true_eq] at hp
      exact ⟨ps, rfl, hp⟩

theorem wf_of_wfB {s : InnerState} (h : WFB s = true) : WF s := by
  rw [WFB, Bool.and_eq_true, List.all_eq_true] at h
  refine ⟨inv_of_invB h.1, fun r l hl => ?_⟩
  have hc := h.2 r (lookupA_mem_keys hl)
  rw [hl] at hc
  simpa using hc

/-! ## Bundled join specification -/

theorem join_room_inner_spec (s : InnerState) (room : RoomId) (fresh : PeerId)
    (hWF : WF s) (hfresh : lookupA fresh s.peers = none) :
    (join_room_inner s room fresh).1.1 = fresh ∧
    (join_room_inner s room fresh).1.2 =
      Event.idAssigned fresh ::
        ((lookupA room s.rooms).getD []).map Event.newPeer ∧
    (∃ l, lookupA room (join_room_inner s room fresh).2.rooms = some l ∧
      fresh ∈ l) ∧
    (∀ q ∈ (lookupA room s.rooms).getD [],
      queueOf (join_room_inner s room fresh).2 q =
        queueOf s q ++ [Event.newPeer fresh]) := by
  refine ⟨?_, ?_, ?_, ?_⟩
  · rw [join_room_inner_result hWF.1 hfresh]
  · rw [join_room_inner_result hWF.1 hfresh]
  · refine ⟨setInsert fresh ((lookupA room s.rooms).getD []), ?_,
      mem_setInsert_self _ _⟩
    rw [join_room_inner_rooms]
    exact lookupA_insertA_self _ _ _
  · intro q hq
    obtain ⟨qs, hqs, -⟩ := member_live hWF.1 hq
    simp only [queueOf]
    rw [join_room_inner_peers_member hWF hfresh hq, hqs]
    rfl

/-! ## Claim C1: new join mints a fresh id and fans out -/

/-- C1: a `JoinOrPoll` call whose supplied peer id is absent or not in
the peer registry mints a fresh id (never reusing the supplied one) and
returns it together with the "identifier assigned" event followed by one
"new peer" event per pre-existing member — `N + 1` events for `N`
members — inserts the fresh id into the room's member set, and appends
exactly one "new peer" event carrying the fresh id to each pre-existing
member's queue. -/
theorem claim_C1_join_fanout (s : InnerState) (room : RoomId)
    (pid? : Option PeerId) (fresh : PeerId) (hWF : WF s)
    (hfresh : lookupA fresh s.peers = none)
    (hjoin : pid? = none ∨ ∃ id, pid? = some id ∧ lookupA id s.peers = none)
    (hmint : ∀ id, pid? = some id → fresh ≠ id) :
    (join_or_poll s room pid? fresh).1.1 = fresh ∧
    (∀ id, pid? = some id → (join_or_poll s room pid? fresh).1.1 ≠ id) ∧
    (join_or_poll s room pid? fresh).1.2 =
      Event.idAssigned fresh ::
        ((lookupA room s.rooms).getD []).map Event.newPeer ∧
    (join_or_poll s room pid? fresh).1.2.length =
      ((lookupA room s.rooms).getD []).length + 1 ∧
    (∃ l, lookupA room (join_or_poll s room pid? fresh).2.rooms = some l ∧
      fresh ∈ l) ∧
    (∀ q ∈ (lookupA room s.rooms).getD [],
      queueOf (join_or_poll s room pid? fresh).2 q =
        queueOf s q ++ [Event.newPeer fresh]) := by
  have heq : join_or_poll s room pid? fresh = join_room_inner s room fresh := by
    rcases hjoin with rfl | ⟨id, rfl, hid⟩
    · rfl
    · exact join_or_poll_join_unknown room fresh hid
  obtain ⟨h1, h2, h3, h4⟩ := join_room_inner_spec s room fresh hWF hfresh
  rw [heq]
  refine ⟨h1, ?_, h2, ?_, h3, h4⟩
  · intro id hid
    rw [h1]
    exact hmint id hid
  · rw [h2]
    simp

theorem claim_C1_witness :
    (join_or_poll exState "r1" none 5).1.1 = 5 ∧
    (join_or_poll exState "r1" none 5).1.2 =
      [Event.idAssigned 5, Event.newPeer 1, Event.newPeer 2] ∧
    queueOf (join_or_poll exState "r1" none 5).2 1 = [Event.newPeer 5] := by
  have h := claim_C1_join_fanout exState "r1" none 5 (wf_of_wfB (by decide))
    (by decide) (Or.inl rfl) (fun id hid => by cases hid)
  refine ⟨h.1, ?_, ?_⟩
  · rw [h.2.2.1]
    rfl
  · have hm := h.2.2.2.2.2 1 (by decide)
    rw [hm]
    rfl

/-! ## Claim C10: a joiner is never notified about itself -/

/-- C10: on a new join, the returned event list never contains a
"new peer" event carrying the joining peer's own id, the joining peer's
stored queue ends empty, and the fan-out touches only the peers that
were members of the room before the insertion. -/
theorem claim_C10_no_self_notification (s : InnerState) (room : RoomId)
    (pid? : Option PeerId) (fresh : PeerId) (hWF : WF s)
    (hfresh : lookupA fresh s.peers = none)
    (hjoin : pid? = none ∨ ∃ id, pid? = some id ∧ lookupA id s.peers = none) :
    Event.newPeer fresh ∉ (join_or_poll s room pid? fresh).1.2 ∧
    queueOf (join_or_poll s room pid? fresh).2 fresh = [] ∧
    (∀ q, q ∉ (lookupA room s.rooms).getD [] → q ≠ fresh →
      lookupA q (join_or_poll s room pid? fresh).2.peers = lookupA q s.peers) := by
  have heq : join_or_poll s room pid? fresh = join_room_inner s room fresh := by
    rcases hjoin with rfl | ⟨id, rfl, hid⟩
    · rfl
    · exact join_or_poll_join_unknown room fresh hid
  have hnm := fresh_not_mem_existing room hWF.1 hfresh
  rw [heq]
  refine ⟨?_, ?_, ?_⟩
  · rw [join_room_inner_result hWF.1 hfresh]
    simp only [List.mem_cons, List.mem_map]
    rintro (h | ⟨a, ha, hae⟩)
    · cases h
    · cases hae
      exact hnm ha
  · simp only [queueOf]
    rw [join_room_inner_peers_fresh hWF.1 hfresh]
    rfl
  · intro q hq hqf
    exact join_room_inner_peers_other hq hqf

theorem claim_C10_witness :
    Event.newPeer 5 ∉ (join_or_poll exState "r1" none 5).1.2 ∧
    queueOf (join_or_poll exState "r1" none 5).2 5 = [] := by
  have h := claim_C10_no_self_notification exState "r1" none 5
    (wf_of_wfB (by decide)) (by decide) (Or.inl rfl)
  exact ⟨h.1, h.2.1⟩

/-! ## Claim C3: poll drains the queue and ignores the room argument -/

/-- C3: a `JoinOrPoll` call whose supplied peer id is found returns the
unchanged id with the entire queue in FIFO order, leaves the queue
empty, and performs no validation of the room argument — the result is
identical for any room argument (and any minted id). -/
theorem claim_C3_poll_drains (s : InnerState) (room : RoomId)
    (id fresh : PeerId) (ps : PeerState) (h : lookupA id s.peers = some ps) :
    (join_or_poll s room (some id) fresh).1 = (id, ps.events) ∧
    queueOf (join_or_poll s room (some id) fresh).2 id = [] ∧
    (∀ room₂ fresh₂, join_or_poll s room₂ (some id) fresh₂ =
      join_or_poll s room (some id) fresh) := by
  rw [join_or_poll_poll room fresh h]
  refine ⟨rfl, ?_, ?_⟩
  · simp only [queueOf]
    rw [lookupA_updateA_self, h]
    rfl
  · intro room₂ fresh₂
    rw [join_or_poll_poll room₂ fresh₂ h]

theorem claim_C3_witness :
    (join_or_poll exState "rX" (some 2) 7).1 = (2, [Event.newPeer 1]) ∧
    queueOf (join_or_poll exState "rX" (some 2) 7).2 2 = [] := by
  have h := claim_C3_poll_drains exState "rX" 2 7 ⟨"r1", [Event.newPeer 1]⟩
    (by decide)
  exact ⟨h.1, h.2.1⟩

/-! ## Claim C9: a poll's only effect is emptying the polled queue -/

/-- C9: for a poll, the room registry is untouched, the polled peer
keeps its room and only its queue is emptied, and every other peer's
registry entry is bit-for-bit unchanged. -/
theorem claim_C9_poll_frame (s : InnerState) (room : RoomId)
    (id fresh : PeerId) (ps : PeerState) (h : lookupA id s.peers = some ps) :
    (join_or_poll s room (some id) fresh).2.rooms = s.rooms ∧
    lookupA id (join_or_poll s room (some id) fresh).2.peers =
      some { room := ps.room, events := [] } ∧
    (∀ q, q ≠ id →
      lookupA q (join_or_poll s room (some id) fresh).2.peers =
        lookupA q s.peers) := by
  rw [join_or_poll_poll room fresh h]
  refine ⟨rfl, ?_, ?_⟩
  · dsimp only
    rw [lookupA_updateA_self, h]
    rfl
  · intro q hq
    dsimp only
    exact lookupA_updateA_ne _ _ hq

theorem claim_C9_witness :
    (join_or_poll exState "rX" (some 2) 7).2.rooms = exState.rooms ∧
    lookupA 1 (join_or_poll exState "rX" (some 2) 7).2.peers =
      lookupA 1 exState.peers := by
  have h := claim_C9_poll_frame exState "rX" 2 7 ⟨"r1", [Event.newPeer 1]⟩
    (by decide)
  exact ⟨h.1, h.2.2 1 (by decide)⟩

/-! ## Claim C4: removal discards the peer and fans out "peer left" -/

/-- C4: removing a registered peer deletes its `PeerState` entirely (its
undelivered queue is discarded), removes the id from its room's member
set, and appends exactly one "peer left" event carrying the removed id
to each remaining member's queue and to no other queue. -/
theorem claim_C4_remove_fanout (s : InnerState) (pid : PeerId) (ps : PeerState)
    (hWF : WF s) (hps : lookupA pid s.peers = some ps) :
    lookupA pid (remove_peer s pid).peers = none ∧
    (∃ l, lookupA ps.room s.rooms = some l ∧
      lookupA ps.room (remove_peer s pid).rooms =
        some (l.filter (fun q => decide (q ≠ pid))) ∧
      pid ∉ l.filter (fun q => decide (q ≠ pid))) ∧
    (∀ l, lookupA ps.room s.rooms = some l →
      ∀ q ∈ l.filter (fun r => decide (r ≠ pid)),
        queueOf (remove_peer s pid) q = queueOf s q ++ [Event.peerLeft pid]) ∧
    (∀ q, q ≠ pid →
      (∀ l, lookupA ps.room s.rooms = some l →
        q ∉ l.filter (fun r => decide (r ≠ pid))) →
      lookupA q (remove_peer s pid).peers = lookupA q s.peers) := by
  obtain ⟨l, hr, hpl⟩ := hWF.1.1 pid ps hps
  refine ⟨remove_peer_lookup_self s pid, ⟨l, hr, ?_, ?_⟩, ?_, ?_⟩
  · rw [remove_peer_rooms_found hps hr]
    exact lookupA_insertA_self _ _ _
  · simp [List.mem_filter]
  · intro l₂ hl₂ q hq
    rw [hr] at hl₂
    cases hl₂
    have hstep := remove_peer_peers_member hWF hps hr hq
    obtain ⟨qs, hqs, -⟩ :=
      hWF.1.2 ps.room l hr q (List.mem_filter.mp hq).1
    simp only [queueOf]
    rw [hstep, hqs]
    rfl
  · intro q hqp hq
    exact remove_peer_peers_other hps hqp hq

theorem claim_C4_witness :
    lookupA 2 (remove_peer exState 2).peers = none ∧
    queueOf (remove_peer exState 2) 1 = [Event.peerLeft 2] := by
  have h := claim_C4_remove_fanout exState 2 ⟨"r1", [Event.newPeer 1]⟩
    (wf_of_wfB (by decide)) (by decide)
  refine ⟨h.1, ?_⟩
  have hm := h.2.2.1 [1, 2] (by decide) 1 (by decide)
  rw [hm]
  rfl

/-! ## Claim C5: queue_event appends verbatim or fails cleanly -/

/-- C5: `queue_event` succeeds exactly when the receiver is registered;
on success the payload is appended verbatim at the end of the receiver's
queue and nothing else changes; on failure it reports `UnknownPeer` and
the whole state is unchanged. -/
theorem claim_C5_queue_signal (s : InnerState) (pid : PeerId) (ev : String) :
    ((queue_event s pid ev).1 = Except.ok () ↔
      (lookupA pid s.peers).isSome = true) ∧
    (∀ ps, lookupA pid s.peers = some ps →
      queueOf (queue_event s pid ev).2 pid = ps.events ++ [Event.payload ev] ∧
      (queue_event s pid ev).2.rooms = s.rooms ∧
      ∀ q, q ≠ pid →
        lookupA q (queue_event s pid ev).2.peers = lookupA q s.peers) ∧
    (lookupA pid s.peers = none →
      (queue_event s pid ev).1 = Except.error SignalingError.unknownPeer ∧
      (queue_event s pid ev).2 = s) := by
  rcases hq : lookupA pid s.peers with _ | ps
  · rw [queue_event_not_found ev hq]
    refine ⟨?_, ?_, fun _ => ⟨rfl, rfl⟩⟩
    · constructor
      · intro h
        cases h
      · intro h
        simp at h
    · intro ps hps
      cases hps
  · rw [queue_event_found ev hq]
    refine ⟨by simp, ?_, ?_⟩
    · intro ps₂ hps₂
      cases hps₂
      refine ⟨?_, rfl, ?_⟩
      · simp only [queueOf]
        rw [lookupA_insertA_self]
        rfl
      · intro q hqp
        exact lookupA_insertA_ne _ _ hqp
    · intro h
      cases h

theorem claim_C5_witness :
    (queue_event exState 1 "sig").1 = Except.ok () ∧
    queueOf (queue_event exState 1 "sig").2 1 = [Event.payload "sig"] ∧
    (queue_event exState 9 "sig").1 = Except.error SignalingError.unknownPeer ∧
    (queue_event exState 9 "sig").2 = exState := by
  have h1 := claim_C5_queue_signal exState 1 "sig"
  have h9 := claim_C5_queue_signal exState 9 "sig"
  refine ⟨h1.1.mpr (by decide), ?_, (h9.2.2 (by decide)).1, (h9.2.2 (by decide)).2⟩
  have hm := (h1.2.1 ⟨"r1", []⟩ (by decide)).1
  rw [hm]
  rfl

/-! ## Claim C7: removal of an unknown peer is a silent no-op -/

/-- C7: `remove_peer` on an id not in the peer registry leaves the state
unchanged (no events generated), and removing the same id twice leaves
the same state as removing it once. -/
theorem claim_C7_remove_noop_idempotent (s : InnerState) (pid : PeerId) :
    (lookupA pid s.peers = none → remove_peer s pid = s) ∧
    remove_peer (remove_peer s pid) pid = remove_peer s pid := by
  constructor
  · exact fun h => remove_peer_not_found h
  · exact remove_peer_not_found (remove_peer_lookup_self s pid)

theorem claim_C7_witness :
    remove_peer exState 9 = exState ∧
    remove_peer (remove_peer exState 2) 2 = remove_peer exState 2 := by
  have h9 := claim_C7_remove_noop_idempotent exState 9
  have h2 := claim_C7_remove_noop_idempotent exState 2
  exact ⟨h9.1 (by decide), h2.2⟩

/-! ## Claim C8: listing a room is read-only -/

/-- C8: `get_room_peers` returns exactly the room's current member set
(the empty set when the room has no entry) and, as an engine operation,
leaves the entire state unchanged and generates no events. -/
theorem claim_C8_list_room_peers (s : InnerState) (room : RoomId) :
    stepState s (Op.listRoomPeers room) = s ∧
    (lookupA room s.rooms = none → get_room_peers s room = []) ∧
    (∀ l, lookupA room s.rooms = some l → get_room_peers s room = l) ∧
    (∀ p, p ∈ get_room_peers s room ↔
      ∃ l, lookupA room s.rooms = some l ∧ p ∈ l) := by
  refine ⟨rfl, ?_, ?_, ?_⟩
  · intro h
    simp [get_room_peers, h]
  · intro l h
    simp [get_room_peers, h]
  · intro p
    rcases h : lookupA room s.rooms with _ | l
    · simp [get_room_peers, h]
    · simp [get_room_peers, h]

theorem claim_C8_witness :
    stepState exState (Op.listRoomPeers "r1") = exState ∧
    get_room_peers exState "r1" = [1, 2] ∧
    get_room_peers exState "zz" = [] := by
  have h1 := claim_C8_list_room_peers exState "r1"
  have h2 := claim_C8_list_room_peers exState "zz"
  exact ⟨h1.1, h1.2.2.1 [1, 2] (by decide), h2.2.1 (by decide)⟩

/-! ## Claim C6: registry-consistency invariants are preserved -/

/-- C6: from any state satisfying the two registry-consistency
invariants, one application of any engine operation (with a fresh minted
id, per the collision-resistant generator assumption) yields a state
satisfying them again. -/
theorem claim_C6_invariants_preserved (s : InnerState) (op : Op) (hInv : Inv s)
    (hf : opFresh s op) : Inv (stepState s op) :=
  inv_preserved op hInv hf

theorem claim_C6_witness :
    Inv (stepState exState (Op.removePeer 2)) :=
  claim_C6_invariants_preserved exState (Op.removePeer 2)
    (inv_of_invB (by decide)) True.intro

/-! ## Step unfolding lemmas -/

theorem stepState_joinOrPoll_poll {s : InnerState} {id : PeerId} {ps : PeerState}
    (room : RoomId) (f : PeerId) (h : lookupA id s.peers = some ps) :
    stepState s (Op.joinOrPoll room (some id) f) =
      ⟨updateA id (fun q => { q with events := [] }) s.peers, s.rooms⟩ := by
  simp [stepState, join_or_poll, h]

theorem stepState_joinOrPoll_join_none (s : InnerState) (room : RoomId)
    (f : PeerId) :
    stepState s (Op.joinOrPoll room none f) = (join_room_inner s room f).2 := rfl

theorem stepState_joinOrPoll_join_unknown {s : InnerState} {id : PeerId}
    (room : RoomId) (f : PeerId) (h : lookupA id s.peers = none) :
    stepState s (Op.joinOrPoll room (some id) f) =
      (join_room_inner s room f).2 := by
  simp [stepState, join_or_poll, h]

theorem stepState_queueSignal_found {s : InnerState} {pid : PeerId}
    {ps : PeerState} (payload : String) (h : lookupA pid s.peers = some ps) :
    stepState s (Op.queueSignal pid payload) =
      ⟨insertA pid { ps with events := ps.events ++ [Event.payload payload] }
        s.peers, s.rooms⟩ := by
  simp [stepState, queue_event, h]

theorem stepState_queueSignal_not_found {s : InnerState} {pid : PeerId}
    (payload : String) (h : lookupA pid s.peers = none) :
    stepState s (Op.queueSignal pid payload) = s := by
  simp [stepState, queue_event, h]

theorem stepState_removePeer (s : InnerState) (pid : PeerId) :
    stepState s (Op.removePeer pid) = remove_peer s pid := rfl

theorem stepState_listRoomPeers (s : InnerState) (room : RoomId) :
    stepState s (Op.listRoomPeers room) = s := rfl

theorem isSome_eq_of_map_room {o₁ o₂ : Option PeerState}
    (h : o₁.map PeerState.room = o₂.map PeerState.room) :
    o₁.isSome = o₂.isSome := by
  cases o₁ <;> cases o₂ <;> simp_all

theorem not_live_of_not_used {s : InnerState} {used : List PeerId} {p : PeerId}
    (hsub : ∀ q, (lookupA q s.peers).isSome = true → q ∈ used)
    (hp : p ∉ used) : lookupA p s.peers = none := by
  rcases h : lookupA p s.peers with _ | ps
  · rfl
  · exact absurd (hsub p (by rw [h]; rfl)) hp

/-! ## Trace hygiene lemmas -/

theorem freshOk_cons {used : List PeerId} {op : Op} {rest : List Op}
    (h : freshOk used (op :: rest) = true) :
    freshOk (usedStep used op) rest = true := by
  cases op with
  | joinOrPoll room pid? f =>
    simp only [freshOk, Bool.and_eq_true] at h
    exact h.2
  | queueSignal pid payload => exact h
  | removePeer pid => exact h
  | listRoomPeers room => exact h

theorem freshOk_fresh {used : List PeerId} {room : RoomId} {pid? : Option PeerId}
    {f : PeerId} {rest : List Op}
    (h : freshOk used (Op.joinOrPoll room pid? f :: rest) = true) : f ∉ used := by
  simp only [freshOk, Bool.and_eq_true, decide_eq_true_eq] at h
  exact h.1

/-! ## Preservation of the reachability invariant `Gd` -/

theorem rooms_nodup_step {s : InnerState} (op : Op) (hWF : WF s) :
    ∀ r l, lookupA r (stepState s op).rooms = some l → l.Nodup := by
  cases op with
  | joinOrPoll room pid? f =>
    have hjoin : ∀ r l, lookupA r (join_room_inner s room f).2.rooms = some l →
        l.Nodup := by
      intro r l hl
      rw [join_room_inner_rooms] at hl
      by_cases hr : r = room
      · subst hr
        rw [lookupA_insertA_self] at hl
        cases hl
        exact setInsert_nodup _ _ (existing_nodup r hWF)
      · rw [lookupA_insertA_ne _ _ hr] at hl
        exact hWF.2 r l hl
    cases pid? with
    | some id =>
      rcases hid : lookupA id s.peers with _ | ps
      · rw [stepState_joinOrPoll_join_unknown room f hid]
        exact hjoin
      · rw [stepState_joinOrPoll_poll room f hid]
        exact fun r l hl => hWF.2 r l hl
    | none =>
      rw [stepState_joinOrPoll_join_none]
      exact hjoin
  | queueSignal pid payload =>
    rcases hid : lookupA pid s.peers with _ | ps
    · rw [stepState_queueSignal_not_found payload hid]
      exact hWF.2
    · rw [stepState_queueSignal_found payload hid]
      exact fun r l hl => hWF.2 r l hl
  | removePeer pid =>
    rcases hid : lookupA pid s.peers with _ | ps
    · rw [stepState_removePeer, remove_peer_not_found hid]
      exact hWF.2
    · rcases hr : lookupA ps.room s.rooms with _ | l₀
      · intro r l hl
        rw [stepState_removePeer] at hl
        simp only [remove_peer, hid, hr] at hl
        exact hWF.2 r l hl
      · intro r l hl
        rw [stepState_removePeer, remove_peer_rooms_found hid hr] at hl
        by_cases hrr : r = ps.room
        · subst hrr
          rw [lookupA_insertA_self] at hl
          cases hl
          exact (hWF.2 _ _ hr).filter _
        · rw [lookupA_insertA_ne _ _ hrr] at hl
          exact hWF.2 r l hl
  | listRoomPeers room => exact hWF.2

theorem wf_step {s : InnerState} (op : Op) (hWF : WF s) (hf : opFresh s op) :
    WF (stepState s op) :=
  ⟨inv_preserved op hWF.1 hf, rooms_nodup_step op hWF⟩

theorem keys_step {s : InnerState} {used : List PeerId} (op : Op)
    (hsub : ∀ p, (lookupA p s.peers).isSome = true → p ∈ used) :
    ∀ p, (lookupA p (stepState s op).peers).isSome = true →
      p ∈ usedStep used op := by
  cases op with
  | joinOrPoll room pid? f =>
    intro p hp
    simp only [usedStep]
    by_cases hpf : p = f
    · exact hpf ▸ List.mem_cons_self _ _
    · refine List.mem_cons_of_mem _ ?_
      cases pid? with
      | some id =>
        rcases hid : lookupA id s.peers with _ | ps
        · rw [stepState_joinOrPoll_join_unknown room f hid] at hp
          rw [isSome_eq_of_map_room (join_peers_room s room hpf)] at hp
          exact hsub p hp
        · rw [stepState_joinOrPoll_poll room f hid] at hp
          by_cases hpe : p = id
          · apply hsub
            rw [hpe, hid]
            rfl
          · rw [show lookupA p (updateA id (fun q => { q with events := [] })
                s.peers) = lookupA p s.peers from lookupA_updateA_ne _ _ hpe] at hp
            exact hsub p hp
      | none =>
        rw [stepState_joinOrPoll_join_none] at hp
        rw [isSome_eq_of_map_room (join_peers_room s room hpf)] at hp
        exact hsub p hp
  | queueSignal pid payload =>
    intro p hp
    rcases hid : lookupA pid s.peers with _ | ps
    · rw [stepState_queueSignal_not_found payload hid] at hp
      exact hsub p hp
    · rw [stepState_queueSignal_found payload hid] at hp
      by_cases hpe : p = pid
      · apply hsub
        rw [hpe, hid]
        rfl
      · rw [show lookupA p (insertA pid
            { ps with events := ps.events ++ [Event.payload payload] } s.peers) =
            lookupA p s.peers from lookupA_insertA_ne _ _ hpe] at hp
        exact hsub p hp
  | removePeer pid =>
    intro p hp
    by_cases hpe : p = pid
    · subst hpe
      rw [stepState_removePeer, remove_peer_lookup_self] at hp
      cases hp
    · rw [stepState_removePeer,
        isSome_eq_of_map_room (remove_peers_room (s := s) hpe)] at hp
      exact hsub p hp
  | listRoomPeers room => exact fun p hp => hsub p hp

theorem gd_step {s : InnerState} {used : List PeerId} (op : Op)
    (hG : Gd s used) (hf : opFresh s op) :
    Gd (stepState s op) (usedStep used op) :=
  ⟨wf_step op hG.1 hf, keys_step op hG.2⟩

/-! ## Dead peers stay dead and receive nothing -/

theorem step_preserves_dead {s : InnerState} {p : PeerId} (op : Op)
    (hp : lookupA p s.peers = none)
    (hop : ∀ room pid?, op ≠ Op.joinOrPoll room pid? p) :
    lookupA p (stepState s op).peers = none := by
  cases op with
  | joinOrPoll room pid? f =>
    have hpf : p ≠ f := by
      intro h
      exact hop room pid? (by rw [h])
    have hjoin : lookupA p (join_room_inner s room f).2.peers = none := by
      have h := join_peers_room s room hpf
      rw [hp] at h
      rcases hq : lookupA p (join_room_inner s room f).2.peers with _ | v
      · rfl
      · rw [hq] at h
        cases h
    cases pid? with
    | some id =>
      rcases hid : lookupA id s.peers with _ | ps
      · rw [stepState_joinOrPoll_join_unknown room f hid]
        exact hjoin
      · rw [stepState_joinOrPoll_poll room f hid]
        have hpe : p ≠ id := by
          intro h
          rw [h, hid] at hp
          cases hp
        rw [lookupA_updateA_ne _ _ hpe]
        exact hp
    | none =>
      rw [stepState_joinOrPoll_join_none]
      exact hjoin
  | queueSignal pid payload =>
    rcases hid : lookupA pid s.peers with _ | ps
    · rw [stepState_queueSignal_not_found payload hid]
      exact hp
    · rw [stepState_queueSignal_found payload hid]
      have hpe : p ≠ pid := by
        intro h
        rw [h, hid] at hp
        cases hp
      rw [lookupA_insertA_ne _ _ hpe]
      exact hp
  | removePeer pid =>
    by_cases hpe : p = pid
    · rw [hpe, stepState_removePeer]
      exact remove_peer_lookup_self s pid
    · rw [stepState_removePeer]
      have h := remove_peers_room (s := s) hpe
      rw [hp] at h
      rcases hq : lookupA p (remove_peer s pid).peers with _ | v
      · rfl
      · rw [hq] at h
        cases h
  | listRoomPeers room => exact hp

theorem deliveredTo_of_dead {s : InnerState} {p : PeerId} (op : Op)
    (hp : lookupA p s.peers = none) : deliveredTo s op p = [] := by
  cases op with
  | joinOrPoll room pid? f =>
    cases pid? with
    | some id =>
      rcases hid : lookupA id s.peers with _ | ps
      · simp [deliveredTo, hid]
      · by_cases hpe : p = id
        · rw [hpe, hid] at hp
          cases hp
        · simp [deliveredTo, hid, hpe]
    | none => rfl
  | queueSignal pid payload => rfl
  | removePeer pid => rfl
  | listRoomPeers room => rfl

theorem appendedTo_of_dead {s : InnerState} {p : PeerId} (op : Op)
    (hp : lookupA p s.peers = none) : appendedTo s op p = [] := by
  cases op with
  | joinOrPoll room pid? f =>
    have hja : joinAppends s room f p = [] := by
      simp [joinAppends, hp]
    cases pid? with
    | some id =>
      rcases hid : lookupA id s.peers with _ | ps
      · simp only [appendedTo, hid]
        exact hja
      · simp [appendedTo, hid]
    | none =>
      simp only [appendedTo]
      exact hja
  | queueSignal pid payload =>
    by_cases hpe : p = pid
    · subst hpe
      simp [appendedTo, hp]
    · simp [appendedTo, hpe]
  | removePeer pid =>
    rcases hid : lookupA pid s.peers with _ | ps
    · simp [appendedTo, hid]
    · simp [appendedTo, hid, hp]
  | listRoomPeers room => rfl

theorem step_kill {s : InnerState} {p : PeerId} (op : Op) (hf : opFresh s op)
    (hlive : (lookupA p s.peers).isSome = true)
    (hdead : lookupA p (stepState s op).peers = none) :
    deliveredTo s op p = [] ∧ appendedTo s op p = [] := by
  obtain ⟨qs, hqs⟩ : ∃ qs, lookupA p s.peers = some qs := by
    rcases h : lookupA p s.peers with _ | qs
    · rw [h] at hlive
      cases hlive
    · exact ⟨qs, rfl⟩
  cases op with
  | joinOrPoll room pid? f =>
    exfalso
    have hffresh : lookupA f s.peers = none := hf
    have hpf : p ≠ f := by
      intro h
      rw [h, hffresh] at hqs
      cases hqs
    have hjoin : lookupA p (join_room_inner s room f).2.peers = none → False := by
      intro hd
      have h := join_peers_room s room hpf
      rw [hd, hqs] at h
      cases h
    cases pid? with
    | some id =>
      rcases hid : lookupA id s.peers with _ | ps
      · rw [stepState_joinOrPoll_join_unknown room f hid] at hdead
        exact hjoin hdead
      · rw [stepState_joinOrPoll_poll room f hid] at hdead
        by_cases hpe : p = id
        · rw [hpe, lookupA_updateA_self, hid] at hdead
          cases hdead
        · rw [lookupA_updateA_ne _ _ hpe, hqs] at hdead
          cases hdead
    | none =>
      rw [stepState_joinOrPoll_join_none] at hdead
      exact hjoin hdead
  | queueSignal pid payload =>
    exfalso
    rcases hid : lookupA pid s.peers with _ | ps
    · rw [stepState_queueSignal_not_found payload hid, hqs] at hdead
      cases hdead
    · rw [stepState_queueSignal_found payload hid] at hdead
      by_cases hpe : p = pid
      · rw [hpe, lookupA_insertA_self] at hdead
        cases hdead
      · rw [lookupA_insertA_ne _ _ hpe, hqs] at hdead
        cases hdead
  | removePeer pid =>
    refine ⟨rfl, ?_⟩
    by_cases hpe : p = pid
    · subst hpe
      simp [appendedTo, hqs]
    · exfalso
      have h := remove_peers_room (s := s) hpe
      rw [stepState_removePeer] at hdead
      rw [hdead, hqs] at h
      cases h
  | listRoomPeers room =>
    exfalso
    rw [stepState_listRoomPeers, hqs] at hdead
    cases hdead

/-! ## The local ledger equation for one step -/

theorem join_queue_live {s : InnerState} {p f : PeerId} (room : RoomId)
    (hWF : WF s) (hffresh : lookupA f s.peers = none) {qs : PeerState}
    (hqs : lookupA p s.peers = some qs) :
    queueOf (join_room_inner s room f).2 p =
      queueOf s p ++ joinAppends s room f p := by
  have hpf : p ≠ f := by
    intro h
    rw [h, hffresh] at hqs
    cases hqs
  by_cases hpe : p ∈ (lookupA room s.rooms).getD []
  · have hm := join_room_inner_peers_member hWF hffresh hpe
    simp only [queueOf, joinAppends]
    rw [hm, hqs]
    simp [hpe, hpf]
  · have ho := join_room_inner_peers_other hpe hpf
    simp only [queueOf, joinAppends]
    rw [ho]
    simp [hpe]

theorem step_queue_live {s : InnerState} {p : PeerId} (op : Op) (hWF : WF s)
    (hf : opFresh s op)
    (hlive : (lookupA p s.peers).isSome = true)
    (hlive₂ : (lookupA p (stepState s op).peers).isSome = true) :
    deliveredTo s op p ++ queueOf (stepState s op) p =
      queueOf s p ++ appendedTo s op p := by
  obtain ⟨qs, hqs⟩ : ∃ qs, lookupA p s.peers = some qs := by
    rcases h : lookupA p s.peers with _ | qs
    · rw [h] at hlive
      cases hlive
    · exact ⟨qs, rfl⟩
  cases op with
  | joinOrPoll room pid? f =>
    have hffresh : lookupA f s.peers = none := hf
    cases pid? with
    | some id =>
      rcases hid : lookupA id s.peers with _ | ps
      · have hd : deliveredTo s (Op.joinOrPoll room (some id) f) p = [] := by
          simp [deliveredTo, hid]
        have ha : appendedTo s (Op.joinOrPoll room (some id) f) p =
            joinAppends s room f p := by
          simp [appendedTo, hid]
        rw [hd, ha, stepState_joinOrPoll_join_unknown room f hid,
          join_queue_live room hWF hffresh hqs]
        rfl
      · rw [stepState_joinOrPoll_poll room f hid]
        by_cases hpe : p = id
        · subst hpe
          rw [hqs] at hid
          cases hid
          have hd : deliveredTo s (Op.joinOrPoll room (some p) f) p =
              qs.events := by
            simp [deliveredTo, hqs]
          have ha : appendedTo s (Op.joinOrPoll room (some p) f) p = [] := by
            simp [appendedTo, hqs]
          have h2 : queueOf
              (⟨updateA p (fun q => { q with events := [] }) s.peers,
                s.rooms⟩ : InnerState) p = [] := by
            simp only [queueOf]
            rw [lookupA_updateA_self, hqs]
            rfl
          rw [hd, ha, h2]
          simp [queueOf, hqs]
        · have hd : deliveredTo s (Op.joinOrPoll room (some id) f) p = [] := by
            simp [deliveredTo, hid, hpe]
          have ha : appendedTo s (Op.joinOrPoll room (some id) f) p = [] := by
            simp [appendedTo, hid]
          have h2 : queueOf
              (⟨updateA id (fun q => { q with events := [] }) s.peers,
                s.rooms⟩ : InnerState) p = queueOf s p := by
            simp only [queueOf]
            rw [lookupA_updateA_ne _ _ hpe]
          rw [hd, ha, h2]
          simp
    | none =>
      have hd : deliveredTo s (Op.joinOrPoll room none f) p = [] := rfl
      have ha : appendedTo s (Op.joinOrPoll room none f) p =
          joinAppends s room f p := rfl
      rw [hd, ha, stepState_joinOrPoll_join_none,
        join_queue_live room hWF hffresh hqs]
      rfl
  | queueSignal pid payload =>
    rcases hid : lookupA pid s.peers with _ | ps
    · have ha : appendedTo s (Op.queueSignal pid payload) p = [] := by
        simp [appendedTo, hid]
      rw [stepState_queueSignal_not_found payload hid, ha]
      simp [deliveredTo]
    · rw [stepState_queueSignal_found payload hid]
      by_cases hpe : p = pid
      · subst hpe
        rw [hqs] at hid
        cases hid
        have ha : appendedTo s (Op.queueSignal p payload) p =
            [Event.payload payload] := by
          simp [appendedTo, hqs]
        have h2 : queueOf
            (⟨insertA p { qs with events := qs.events ++ [Event.payload payload] }
              s.peers, s.rooms⟩ : InnerState) p =
            qs.events ++ [Event.payload payload] := by
          simp only [queueOf]
          rw [lookupA_insertA_self]
          rfl
        rw [ha, h2]
        simp [deliveredTo, queueOf, hqs]
      · have ha : appendedTo s (Op.queueSignal pid payload) p = [] := by
          simp [appendedTo, hpe]
        have h2 : queueOf
            (⟨insertA pid { ps with events := ps.events ++ [Event.payload payload] }
              s.peers, s.rooms⟩ : InnerState) p = queueOf s p := by
          simp only [queueOf]
          rw [lookupA_insertA_ne _ _ hpe]
        rw [ha, h2]
        simp [deliveredTo]
  | removePeer pid =>
    have hpe : p ≠ pid := by
      intro h
      rw [h, stepState_removePeer, remove_peer_lookup_self] at hlive₂
      cases hlive₂
    rcases hid : lookupA pid s.peers with _ | ps
    · have ha : appendedTo s (Op.removePeer pid) p = [] := by
        simp [appendedTo, hid]
      rw [stepState_removePeer, remove_peer_not_found hid, ha]
      simp [deliveredTo]
    · rcases hr : lookupA ps.room s.rooms with _ | l
      · have ha : appendedTo s (Op.removePeer pid) p = [] := by
          simp [appendedTo, hid, hr]
        have h2 : queueOf (stepState s (Op.removePeer pid)) p = queueOf s p := by
          rw [stepState_removePeer]
          simp only [remove_peer, hid, hr, queueOf]
          rw [lookupA_eraseA_ne _ hpe]
        rw [ha, h2]
        simp [deliveredTo]
      · by_cases hmem : p ∈ l.filter (fun q => decide (q ≠ pid))
        · have ha : appendedTo s (Op.removePeer pid) p =
              [Event.peerLeft pid] := by
            simp only [appendedTo, hid, hr]
            rw [if_pos]
            exact ⟨by simpa using hmem, hpe, by rw [hqs]; rfl⟩
          have hm := remove_peer_peers_member hWF hid hr hmem
          rw [stepState_removePeer, ha]
          simp only [queueOf]
          rw [hm, hqs]
          simp [deliveredTo]
        · have ha : appendedTo s (Op.removePeer pid) p = [] := by
            simp only [appendedTo, hid, hr]
            rw [if_neg]
            intro hc
            exact hmem (by simpa using hc.1)
          have ho := remove_peer_peers_other hid hpe (by
            intro l₂ hl₂
            rw [hr] at hl₂
            cases hl₂
            exact hmem)
          rw [stepState_removePeer, ha]
          simp only [queueOf]
          rw [ho]
          simp [deliveredTo]
  | listRoomPeers room =>
    simp [deliveredTo, appendedTo, stepState]

/-! ## The delivery ledger over whole traces -/

theorem ledger_dead (ops : List Op) : ∀ (s : InnerState) (used : List PeerId)
    (p : PeerId), Gd s used → freshOk used ops = true → p ∈ used →
    lookupA p s.peers = none →
    lookupA p (runState s ops).peers = none ∧
    deliveredAll s p ops = [] ∧ appendedAll s p ops = [] := by
  induction ops with
  | nil =>
    intro s used p hG hfr hpu hp
    exact ⟨hp, rfl, rfl⟩
  | cons op rest ih =>
    intro s used p hG hfr hpu hp
    have hop : ∀ room pid?, op ≠ Op.joinOrPoll room pid? p := by
      intro room pid? h
      subst h
      exact (freshOk_fresh hfr) hpu
    have hof : opFresh s op := by
      cases op with
      | joinOrPoll room pid? f =>
        exact not_live_of_not_used hG.2 (freshOk_fresh hfr)
      | queueSignal pid payload => exact True.intro
      | removePeer pid => exact True.intro
      | listRoomPeers room => exact True.intro
    have hdead₁ := step_preserves_dead op hp hop
    have hpu₁ : p ∈ usedStep used op := by
      cases op with
      | joinOrPoll room pid? f => exact List.mem_cons_of_mem _ hpu
      | queueSignal pid payload => exact hpu
      | removePeer pid => exact hpu
      | listRoomPeers room => exact hpu
    have hG₁ := gd_step op hG hof
    have hfr₁ := freshOk_cons hfr
    obtain ⟨h1, h2, h3⟩ :=
      ih (stepState s op) (usedStep used op) p hG₁ hfr₁ hpu₁ hdead₁
    refine ⟨h1, ?_, ?_⟩
    · simp only [deliveredAll]
      rw [deliveredTo_of_dead op hp, h2]
      rfl
    · simp only [appendedAll]
      rw [appendedTo_of_dead op hp, h3]
      rfl

theorem ledger_main (ops : List Op) : ∀ (s : InnerState) (used : List PeerId)
    (p : PeerId), Gd s used → freshOk used ops = true →
    ((lookupA p s.peers).isSome = true ∨ p ∉ used) →
    (∀ ps₂, lookupA p (runState s ops).peers = some ps₂ →
      deliveredAll s p ops ++ ps₂.events = queueOf s p ++ appendedAll s p ops) ∧
    (lookupA p (runState s ops).peers = none →
      ∃ t, deliveredAll s p ops ++ t = queueOf s p ++ appendedAll s p ops) := by
  induction ops with
  | nil =>
    intro s used p hG hfr hcase
    simp only [runState, deliveredAll, appendedAll]
    constructor
    · intro ps₂ hps₂
      simp [queueOf, hps₂]
    · intro hnone
      exact ⟨queueOf s p, by simp⟩
  | cons op rest ih =>
    intro s used p hG hfr hcase
    have hfr₁ := freshOk_cons hfr
    have hof : opFresh s op := by
      cases op with
      | joinOrPoll room pid? f =>
        exact not_live_of_not_used hG.2 (freshOk_fresh hfr)
      | queueSignal pid payload => exact True.intro
      | removePeer pid => exact True.intro
      | listRoomPeers room => exact True.intro
    have hG₁ := gd_step op hG hof
    simp only [deliveredAll, appendedAll, runState]
    rcases hq : lookupA p s.peers with _ | qs
    · have hpu : p ∉ used := by
        rcases hcase with hl | hnu
        · rw [hq] at hl
          cases hl
        · exact hnu
      have hd0 : deliveredTo s op p = [] := deliveredTo_of_dead op hq
      have ha0 : appendedTo s op p = [] := appendedTo_of_dead op hq
      have hq0 : queueOf s p = [] := by simp [queueOf, hq]
      rw [hd0, ha0, hq0]
      simp only [List.nil_append, List.append_nil]
      rcases hq₁ : lookupA p (stepState s op).peers with _ | qs₁
      · by_cases hpu₁ : p ∈ usedStep used op
        · obtain ⟨h1, h2, h3⟩ := ledger_dead rest (stepState s op)
            (usedStep used op) p hG₁ hfr₁ hpu₁ hq₁
          constructor
          · intro ps₂ hps₂
            rw [h1] at hps₂
            cases hps₂
          · intro _
            refine ⟨[], ?_⟩
            rw [h2, h3]
            rfl
        · obtain ⟨ih1, ih2⟩ := ih (stepState s op) (usedStep used op) p hG₁ hfr₁
            (Or.inr hpu₁)
          have hq₁0 : queueOf (stepState s op) p = [] := by simp [queueOf, hq₁]
          rw [hq₁0] at ih1 ih2
          simp only [List.nil_append] at ih1 ih2
          exact ⟨ih1, ih2⟩
      · have hq₁0 : queueOf (stepState s op) p = [] := by
          cases op with
          | joinOrPoll room pid? f =>
            by_cases hf2 : f = p
            · subst hf2
              cases pid? with
              | some id =>
                rcases hid : lookupA id s.peers with _ | ps
                · rw [stepState_joinOrPoll_join_unknown room f hid]
                  simp only [queueOf]
                  rw [join_room_inner_peers_fresh hG.1.1 hq]
                  rfl
                · exfalso
                  rw [stepState_joinOrPoll_poll room f hid] at hq₁
                  have hpe : f ≠ id := by
                    intro h
                    rw [h, hid] at hq
                    cases hq
                  rw [lookupA_updateA_ne _ _ hpe, hq] at hq₁
                  cases hq₁
              | none =>
                rw [stepState_joinOrPoll_join_none]
                simp only [queueOf]
                rw [join_room_inner_peers_fresh hG.1.1 hq]
                rfl
            · exfalso
              have hnd := step_preserves_dead (Op.joinOrPoll room pid? f) hq
                (by
                  intro r2 p2 h
                  injection h with h1 h2 h3
                  exact hf2 h3)
              rw [hnd] at hq₁
              cases hq₁
          | queueSignal pid payload =>
            exfalso
            have hnd := step_preserves_dead (Op.queueSignal pid payload) hq
              (fun r2 p2 h => by cases h)
            rw [hnd] at hq₁
            cases hq₁
          | removePeer pid =>
            exfalso
            have hnd := step_preserves_dead (Op.removePeer pid) hq
              (fun r2 p2 h => by cases h)
            rw [hnd] at hq₁
            cases hq₁
          | listRoomPeers room =>
            exfalso
            have hnd := step_preserves_dead (Op.listRoomPeers room) hq
              (fun r2 p2 h => by cases h)
            rw [hnd] at hq₁
            cases hq₁
        obtain ⟨ih1, ih2⟩ := ih (stepState s op) (usedStep used op) p hG₁ hfr₁
          (Or.inl (by rw [hq₁]; rfl))
        rw [hq₁0] at ih1 ih2
        simp only [List.nil_append] at ih1 ih2
        exact ⟨ih1, ih2⟩
    · have hlive : (lookupA p s.peers).isSome = true := by
        rw [hq]
        rfl
      rcases hq₁ : lookupA p (stepState s op).peers with _ | qs₁
      · obtain ⟨hd0, ha0⟩ := step_kill op hof hlive hq₁
        have hpu₁ : p ∈ usedStep used op := by
          have hmem := hG.2 p hlive
          cases op with
          | joinOrPoll room pid? f => exact List.mem_cons_of_mem _ hmem
          | queueSignal pid payload => exact hmem
          | removePeer pid => exact hmem
          | listRoomPeers room => exact hmem
        obtain ⟨h1, h2, h3⟩ := ledger_dead rest (stepState s op)
          (usedStep used op) p hG₁ hfr₁ hpu₁ hq₁
        constructor
        · intro ps₂ hps₂
          rw [h1] at hps₂
          cases hps₂
        · intro _
          refine ⟨queueOf s p, ?_⟩
          rw [hd0, h2, ha0, h3]
          simp
      · have hlive₂ : (lookupA p (stepState s op).peers).isSome = true := by
          rw [hq₁]
          rfl
        have hloc := step_queue_live op hG.1 hof hlive hlive₂
        obtain ⟨ih1, ih2⟩ := ih (stepState s op) (usedStep used op) p hG₁ hfr₁
          (Or.inl hlive₂)
        constructor
        · intro ps₂ hps₂
          have hr := ih1 ps₂ hps₂
          calc (deliveredTo s op p ++ deliveredAll (stepState s op) p rest) ++
                ps₂.events
              = deliveredTo s op p ++
                (deliveredAll (stepState s op) p rest ++ ps₂.events) := by
                rw [List.append_assoc]
            _ = deliveredTo s op p ++ (queueOf (stepState s op) p ++
                appendedAll (stepState s op) p rest) := by rw [hr]
            _ = (deliveredTo s op p ++ queueOf (stepState s op) p) ++
                appendedAll (stepState s op) p rest := by rw [List.append_assoc]
            _ = (queueOf s p ++ appendedTo s op p) ++
                appendedAll (stepState s op) p rest := by rw [hloc]
            _ = queueOf s p ++ (appendedTo s op p ++
                appendedAll (stepState s op) p rest) := by rw [List.append_assoc]
        · intro hnone
          obtain ⟨t, ht⟩ := ih2 hnone
          refine ⟨t, ?_⟩
          calc (deliveredTo s op p ++ deliveredAll (stepState s op) p rest) ++ t
              = deliveredTo s op p ++
                (deliveredAll (stepState s op) p rest ++ t) := by
                rw [List.append_assoc]
            _ = deliveredTo s op p ++ (queueOf (stepState s op) p ++
                appendedAll (stepState s op) p rest) := by rw [ht]
            _ = (deliveredTo s op p ++ queueOf (stepState s op) p) ++
                appendedAll (stepState s op) p rest := by rw [List.append_assoc]
            _ = (queueOf s p ++ appendedTo s op p) ++
                appendedAll (stepState s op) p rest := by rw [hloc]
            _ = queueOf s p ++ (appendedTo s op p ++
                appendedAll (stepState s op) p rest) := by rw [List.append_assoc]

/-! ## Claim C2: exactly-once FIFO delivery -/

/-- C2 counterexample: the claim as stated — every event appended to a
peer's queue is returned by a subsequent poll for that peer (exactly
once) — is false: in the trace "peer 0 joins room r, peer 1 joins room
r", the event `NewPeer 1` is appended to peer 0's queue but no
subsequent poll ever occurs, so it is returned by zero polls.  (The same
happens when the peer is removed before polling: its pending events are
discarded.) -/
theorem claim_C2_counterexample :
    ¬ (∀ ops : List Op, freshOk [] ops = true → ∀ p : PeerId, ∀ e : Event,
        e ∈ appendedAll emptyState p ops → e ∈ deliveredAll emptyState p ops) := by
  intro h
  have hmem := h [Op.joinOrPoll "r" none 0, Op.joinOrPoll "r" none 1]
    (by decide) 0 (Event.newPeer 1) (by decide)
  revert hmem
  decide

/-- C2 (amended): for every hygienic sequence of engine operations from
the empty state and every peer, the events delivered to that peer by
polls followed by its pending queue equal, as a list, exactly the events
appended to its queue — so each appended event is delivered by at most
one subsequent poll, in FIFO order, and never twice, and a poll drains
everything appended so far; when the peer has been removed (or never
existed) the delivered events form a prefix of the appended ones, the
missing suffix being the events discarded with the peer. -/
theorem claim_C2_ledger (ops : List Op) (hfr : freshOk [] ops = true) :
    ∀ p : PeerId,
      (∀ ps, lookupA p (runState emptyState ops).peers = some ps →
        deliveredAll emptyState p ops ++ ps.events =
          appendedAll emptyState p ops) ∧
      (lookupA p (runState emptyState ops).peers = none →
        ∃ t, deliveredAll emptyState p ops ++ t =
          appendedAll emptyState p ops) := by
  intro p
  have hG : Gd emptyState [] := by
    refine ⟨⟨⟨?_, ?_⟩, ?_⟩, ?_⟩
    · intro q qs h
      simp [emptyState, lookupA] at h
    · intro r l h
      simp [emptyState, lookupA] at h
    · intro r l h
      simp [emptyState, lookupA] at h
    · intro q h
      simp [emptyState, lookupA] at h
  have h := ledger_main ops emptyState [] p hG hfr (Or.inr (by simp))
  have hq0 : queueOf emptyState p = [] := rfl
  rw [hq0] at h
  simp only [List.nil_append] at h
  exact h

theorem claim_C2_witness :
    deliveredAll emptyState 0
        [Op.joinOrPoll "r" none 0, Op.joinOrPoll "r" none 1,
          Op.joinOrPoll "r" (some 0) 2] ++ [] =
      appendedAll emptyState 0
        [Op.joinOrPoll "r" none 0, Op.joinOrPoll "r" none 1,
          Op.joinOrPoll "r" (some 0) 2] := by
  have h := claim_C2_ledger
    [Op.joinOrPoll "r" none 0, Op.joinOrPoll "r" none 1,
      Op.joinOrPoll "r" (some 0) 2] (by decide) 0
  exact h.1 ⟨"r", []⟩ (by decide)

end Matchbox
